import Mathlib

/-!
Verification of the sha1files repository (src/main.go): a shallow embedding of
its traversal / hashing / batching / persistence pipeline, together with
theorems settling the frozen claims about its specification.

Conventions of the embedding:
- machine integers are Nat with explicit reduction modulo 2^32 (def u32);
- file bytes are List Nat; a file whose read fails (ioutil.ReadFile error,
  main.go line 28) carries none as its content;
- the filesystem is a finite tree (FSEntry / FSList); directory entries are
  listed in the (deterministic, lexicographic) order in which
  path/filepath.Walk visits them, since Walk sorts directory names;
- the SQLite store is represented by the observable sequence of database
  calls commitRecords performs (DBOp) plus a DBBehavior record saying which
  of those calls fail.
-/

set_option maxRecDepth 8192

namespace Sha1Files

/-- Reduction modulo 2^32: the implicit truncation of Go uint32 arithmetic
inside crypto/sha1. -/
def u32 (n : Nat) : Nat := n % 4294967296

/-- Left rotation of a 32-bit word by k bits (crypto/sha1 block function). -/
def rotl (k n : Nat) : Nat := n % 2 ^ (32 - k) * 2 ^ k + n / 2 ^ (32 - k)

/-- The 8-byte big-endian encoding of the message bit length, appended by
SHA-1 padding. -/
def lenBytes (ml : Nat) : List Nat :=
  (List.range 8).map (fun i => ml / 2 ^ (8 * (7 - i)) % 256)

/-- SHA-1 padding: append 0x80, then zeros up to 56 mod 64 bytes, then the
64-bit big-endian bit length. -/
def padMessage (bs : List Nat) : List Nat :=
  bs ++ 128 :: List.replicate ((120 - (bs.length + 1) % 64) % 64) 0 ++ lenBytes (8 * bs.length)

/-- Split the padded message into 64-byte blocks (fuel-indexed so the
recursion is structural and kernel-reducible). -/
def toBlocksFuel : Nat → List Nat → List (List Nat)
  | 0, _ => []
  | _, [] => []
  | f + 1, l => l.take 64 :: toBlocksFuel f (l.drop 64)

/-- Split a byte list into 64-byte blocks. -/
def toBlocks (l : List Nat) : List (List Nat) := toBlocksFuel l.length l

/-- The 16 initial 32-bit big-endian words of a 64-byte block. -/
def blockWords (blk : List Nat) : List Nat :=
  (List.range 16).map (fun i =>
    blk.getD (4 * i) 0 * 16777216 + blk.getD (4 * i + 1) 0 * 65536 +
      blk.getD (4 * i + 2) 0 * 256 + blk.getD (4 * i + 3) 0)

/-- Message-schedule extension; the accumulator holds the words produced so
far, most recent first, so w[t-3], w[t-8], w[t-14], w[t-16] sit at positions
2, 7, 13, 15. -/
def extendW : List Nat → Nat → List Nat
  | ws, 0 => ws
  | ws, n + 1 =>
    extendW (rotl 1 (ws.getD 2 0 ^^^ ws.getD 7 0 ^^^ ws.getD 13 0 ^^^ ws.getD 15 0) :: ws) n

/-- The five 32-bit working registers of SHA-1. -/
structure Sha1State where
  a : Nat
  b : Nat
  c : Nat
  d : Nat
  e : Nat
deriving DecidableEq

/-- One of the 80 SHA-1 rounds; the bitwise complement of b is written
4294967295 - b, valid because every register stays below 2^32. -/
def roundStep (w : List Nat) (s : Sha1State) (i : Nat) : Sha1State :=
  let f :=
    if i < 20 then s.b &&& s.c ||| (4294967295 - s.b) &&& s.d
    else if i < 40 then s.b ^^^ s.c ^^^ s.d
    else if i < 60 then s.b &&& s.c ||| s.b &&& s.d ||| s.c &&& s.d
    else s.b ^^^ s.c ^^^ s.d
  let k :=
    if i < 20 then 1518500249
    else if i < 40 then 1859775393
    else if i < 60 then 2400959708
    else 3395469782
  { a := u32 (rotl 5 s.a + f + s.e + k + w.getD i 0)
    b := s.a
    c := rotl 30 s.b
    d := s.c
    e := s.d }

/-- Compression of one 64-byte block into the running hash state. -/
def compress (h : Sha1State) (blk : List Nat) : Sha1State :=
  let w := (extendW (blockWords blk).reverse 64).reverse
  let s := (List.range 80).foldl (roundStep w) h
  { a := u32 (h.a + s.a), b := u32 (h.b + s.b), c := u32 (h.c + s.c),
    d := u32 (h.d + s.d), e := u32 (h.e + s.e) }

/-- The SHA-1 initialization vector. -/
def sha1Init : Sha1State := ⟨0x67452301, 0xEFCDAB89, 0x98BADCFE, 0x10325476, 0xC3D2E1F0⟩

/-- The five 32-bit words of the SHA-1 digest of a byte sequence. -/
def sha1Words (bs : List Nat) : Sha1State := (toBlocks (padMessage bs)).foldl compress sha1Init

/-- The sixteen lowercase hexadecimal digits, in order. -/
def hexDigits : String := "0123456789abcdef"

/-- The lowercase hexadecimal digit of a value below 16. -/
def hexChar (n : Nat) : Char := hexDigits.data.getD n '0'

/-- A 32-bit word rendered as 8 lowercase hexadecimal characters
(hex.EncodeToString, main.go line 35). -/
def wordHex (w : Nat) : List Char := (List.range 8).map (fun i => hexChar (w / 16 ^ (7 - i) % 16))

/-- The lowercase hexadecimal SHA-1 digest of a byte sequence: the pure core
of calcSha1 (main.go lines 33-35). -/
def sha1hex (bs : List Nat) : String :=
  let h := sha1Words bs
  ⟨wordHex h.a ++ wordHex h.b ++ wordHex h.c ++ wordHex h.d ++ wordHex h.e⟩

/-- Error signals a visit can produce: filepath.SkipDir (main.go line 46) or
the error of a failed file read (main.go lines 28-30). -/
inductive WErr where
  | skipDir
  | ioError
deriving DecidableEq

/-- calcSha1 (main.go lines 27-38): read the whole file and hash it; the
file's readability is carried by its content being some bytes or none. -/
def calcSha1 : Option (List Nat) → Except WErr String
  | none => .error .ioError
  | some bs => .ok (sha1hex bs)

/-- strings.HasPrefix(name, ".") (main.go line 44): the base name starts
with the hidden-file marker. -/
def isHiddenName (s : String) : Bool :=
  match s.data with
  | [] => false
  | c :: _ => c = '.'

/-- Scan for path/filepath.Ext, processing the name from its last character
towards the front (the input list is the reversed name); acc holds the
characters already passed, in original order. Stops at a path separator,
exactly as filepath.Ext does. -/
def extRevAux : List Char → List Char → List Char
  | [], _ => []
  | c :: rest, acc =>
    if c = '/' then [] else if c = '.' then '.' :: acc else extRevAux rest (c :: acc)

/-- path/filepath.Ext (used at main.go line 53): the suffix of the name
starting at its final dot, or empty if the name has no dot. -/
def filepathExt (s : String) : String := ⟨extRevAux s.data.reverse []⟩

/-- Whether the second list starts with the first (pattern match at the
head, as strings.Index does at each scan position). -/
def leadsWith : List Char → List Char → Bool
  | [], _ => true
  | _ :: _, [] => false
  | p :: ps, c :: cs => p = c && leadsWith ps cs

/-- Remove every leftmost non-overlapping occurrence of pat (fuel-indexed so
the recursion is structural; fuel = length of the scanned list suffices
because each step consumes at least one character when pat is nonempty). -/
def removeFuel : Nat → List Char → List Char → List Char
  | 0, l, _ => l
  | _ + 1, [], _ => []
  | f + 1, c :: cs, pat =>
    if leadsWith pat (c :: cs) then removeFuel f ((c :: cs).drop pat.length) pat
    else c :: removeFuel f cs pat

/-- strings.Replace(s, pat, "", -1) (main.go line 54): Go returns s
unchanged when old == new (here: when pat is empty), otherwise removes every
leftmost non-overlapping occurrence of pat. -/
def stringsReplace (s pat : String) : String :=
  if pat = "" then s else ⟨removeFuel s.data.length s.data pat.data⟩

/-- Modelled from the spec's words (claim C7): the extensionless name
obtained by "splitting on the last separator", i.e. the part of the name
before its final dot. Used only to compare the spec's split rule with the
code's strings.Replace rule. -/
def stemRevAux : List Char → List Char
  | [] => []
  | c :: rest => if c = '.' then rest.reverse else stemRevAux rest

/-- Modelled from the spec's words (claim C7): the stem of the last-dot
split of a name that contains a dot. -/
def lastDotStem (s : String) : String := ⟨stemRevAux s.data.reverse⟩

/-- The record built for each regular file (main.go lines 18-23). -/
structure Record where
  extless : String
  ext : String
  sha1 : String
  path : String
deriving DecidableEq

/- A filesystem entry: a regular file with (optional, if readable) content,
or a directory with an ordered entry list. The order of FSList is the order
in which filepath.Walk visits the entries (lexicographic, since Walk sorts
directory names). -/
mutual
inductive FSEntry where
  | file (name : String) (content? : Option (List Nat))
  | dir (name : String) (entries : FSList)
inductive FSList where
  | nil
  | cons (e : FSEntry) (rest : FSList)
end

/-- The base name of an entry (info.Name()). -/
def FSEntry.name : FSEntry → String
  | .file n _ => n
  | .dir n _ => n

/-- Whether the entry is a directory (info.IsDir()). -/
def FSEntry.isDir : FSEntry → Bool
  | .file _ _ => false
  | .dir _ _ => true

/-- Concatenation of entry lists. -/
def FSList.append : FSList → FSList → FSList
  | .nil, l => l
  | .cons e r, l => .cons e (FSList.append r l)

/-- filepath.Join of a directory path and a child name, for the paths Walk
hands to the callback. -/
def pathJoin (p n : String) : String := p ++ "/" ++ n

/-- doVisit (main.go lines 43-68): skip entries whose base name starts with
a dot; log and produce nothing for directories; for regular files derive
ext with filepath.Ext, extless with strings.Replace(name, ext, "", -1),
hash the content, and build the record. -/
def doVisit (path : String) (info : FSEntry) : Except WErr (Option Record) :=
  if isHiddenName (FSEntry.name info) then .error .skipDir
  else
    match info with
    | .dir _ _ => .ok none
    | .file n c? =>
      let ext := filepathExt n
      let extless := stringsReplace n ext
      match calcSha1 c? with
      | .error e => .error e
      | .ok h => .ok (some ⟨extless, ext, h, path⟩)

/-- Whether filepath.Walk's loop over a directory's entries continues after
a child visit finished with the given signal: a nil error always continues;
SkipDir continues only when the child is a directory (for a non-directory
child, Walk abandons the remaining entries of the containing directory);
any other error aborts the walk of this subtree. -/
def continueAfter (isDir : Bool) : Option WErr → Bool
  | none => true
  | some .skipDir => isDir
  | some .ioError => false

/- filepath.Walk's recursive walk function, specialised to the visit
callback of main.go lines 117-135 with an ideal store (commits never fail):
its observable effect is the ordered list of records appended, so walkEntry
returns that list together with the signal walk returns to its caller.
walkList is Walk's loop over a directory's (sorted) entries. -/
mutual
def walkEntry (path : String) (e : FSEntry) : List Record × Option WErr :=
  match e with
  | .file n c? =>
    match doVisit path (.file n c?) with
    | .error sig => ([], some sig)
    | .ok r? => (r?.toList, none)
  | .dir n es =>
    match doVisit path (.dir n es) with
    | .error sig => ([], some sig)
    | .ok _ => walkList path es
def walkList (path : String) (l : FSList) : List Record × Option WErr :=
  match l with
  | .nil => ([], none)
  | .cons e rest =>
    let r := walkEntry (pathJoin path (FSEntry.name e)) e
    if continueAfter (FSEntry.isDir e) r.2 then
      let r2 := walkList path rest
      (r.1 ++ r2.1, r2.2)
    else (r.1, r.2)
end

/-- filepath.Walk on a root: run the recursive walk and translate a
top-level SkipDir into a nil error, as Walk does. -/
def walkTop (path : String) (e : FSEntry) : List Record × Option WErr :=
  let r := walkEntry path e
  (r.1, if r.2 = some WErr.skipDir then none else r.2)

/- Modelled from the spec's words (claims C1/C2): the number of non-hidden
regular files reachable from an entry, with hidden subtrees excluded
entirely. This is the spec-side count the emitted records are compared
against. -/
mutual
def countNonHidden : FSEntry → Nat
  | .file n _ => if isHiddenName n then 0 else 1
  | .dir n es => if isHiddenName n then 0 else countNonHiddenL es
def countNonHiddenL : FSList → Nat
  | .nil => 0
  | .cons e rest => countNonHidden e + countNonHiddenL rest
end

/- No regular file outside a hidden subtree has a hidden name (hidden
directories, which the walker skips wholesale, may contain anything). -/
mutual
def noHiddenFiles : FSEntry → Bool
  | .file n _ => !isHiddenName n
  | .dir n es => isHiddenName n || noHiddenFilesL es
def noHiddenFilesL : FSList → Bool
  | .nil => true
  | .cons e rest => noHiddenFiles e && noHiddenFilesL rest
end

/- Every regular file outside a hidden subtree is readable (no I/O error
during hashing). -/
mutual
def allReadable : FSEntry → Bool
  | .file _ c? => c?.isSome
  | .dir n es => isHiddenName n || allReadableL es
def allReadableL : FSList → Bool
  | .nil => true
  | .cons e rest => allReadable e && allReadableL rest
end

/-- Which of the database calls made by commitRecords fail. tx.Commit()'s
outcome is recorded here even though commitRecords never consults it
(main.go line 90 discards it). -/
structure DBBehavior where
  beginErr : Option String
  prepareErr : Option String
  commitErr : Option String
deriving DecidableEq

/-- The observable database calls commitRecords can make. execDB is an
execution of a statement prepared on the database handle (db.Prepare,
main.go line 80), which database/sql runs on a pool connection outside any
transaction; execTx would be an execution inside the open transaction
(tx.Prepare / tx.Stmt), which the code never performs. -/
inductive DBOp where
  | beginTx
  | prepareDB (query : String)
  | execDB (args : List String)
  | execTx (args : List String)
  | commitTx
deriving DecidableEq

/-- The insert statement commitRecords prepares (main.go line 80). -/
def insertSQL : String := "INSERT INTO files (extless, ext, sha1, path) VALUES (?, ?, ?, ?)"

/-- The parameter tuple bound for one record (main.go line 87). -/
def recordArgs (r : Record) : List String := [r.extless, r.ext, r.sha1, r.path]

/-- commitRecords (main.go lines 72-92): db.Begin, then db.Prepare (on the
database handle, not the transaction), then one stmt.Exec per record with
the per-row error discarded (line 87), then tx.Commit() with its error
discarded (line 90). Returns the error result the Go function returns,
paired with the trace of database calls made. -/
def commitRecords (db : DBBehavior) (records : List Record) : Except String Unit × List DBOp :=
  match db.beginErr with
  | some e => (.error e, [.beginTx])
  | none =>
    match db.prepareErr with
    | some e => (.error e, [.beginTx, .prepareDB insertSQL])
    | none =>
      (.ok (), [.beginTx, .prepareDB insertSQL] ++
        records.map (fun r => .execDB (recordArgs r)) ++ [.commitTx])

/-- Modelled from the spec's words (claim C5 / spec section 4.4): a flush
performs begin; a parameterized insert of (extless, ext, sha1, path) for
each record, in order, within that transaction; then commit. -/
def flushSpecOps (records : List Record) : List DBOp :=
  [.beginTx] ++ records.map (fun r => .execTx (recordArgs r)) ++ [.commitTx]

/-- The driver's mutable state (main.go line 115): the in-memory batch and
the batches committed so far (the store being ideal, each commitRecords
call is recorded by the batch it persisted). -/
structure RunState where
  batch : List Record
  commits : List (List Record)
deriving DecidableEq

/-- The visit callback's handling of one appended record (main.go lines
122-132): append, and when the batch reaches exactly 100000 records commit
it and clear the batch. -/
def appendRecord (st : RunState) (r : Record) : RunState :=
  let recs := st.batch ++ [r]
  if recs.length = 100000 then ⟨[], st.commits ++ [recs]⟩ else ⟨recs, st.commits⟩

/-- Feed a stream of records through the visit callback's batching logic. -/
def feedRecords (st : RunState) (rs : List Record) : RunState := rs.foldl appendRecord st

/-- The batches committed by a run that emits exactly the given record
stream: the in-run flushes plus the final flush of a non-empty remainder
(main.go lines 147-152). -/
def runStream (rs : List Record) : List (List Record) :=
  let st := feedRecords ⟨[], []⟩ rs
  if st.batch.isEmpty then st.commits else st.commits ++ [st.batch]

/-- A root directory argument after the driver's filepath.Abs call: either
resolved to an absolute path with the tree found there, or a root whose
absolute-path resolution failed (filepath.Abs then returns the empty
string). -/
inductive Root where
  | resolved (abs : String) (tree : FSEntry)
  | unresolvedDir (dir : String)

/-- The driver's loop over roots (main.go lines 137-144). For a resolved
root it runs filepath.Walk and discards Walk's returned error (line 143),
so the walked root's records are fed to the batch whatever the walk's
outcome. For a root whose filepath.Abs failed, the code logs but has no
continue statement: it calls filepath.Walk on the empty path, lstat("")
fails, Walk hands the callback a nil FileInfo, and doVisit's info.Name()
(main.go line 44) dereferences the nil interface - a runtime panic that
kills the process, modelled by the Bool flag becoming true and the loop
stopping. -/
def runRoots : RunState → List Root → RunState × Bool
  | st, [] => (st, false)
  | st, .resolved a t :: rest => runRoots (feedRecords st (walkTop a t).1) rest
  | st, .unresolvedDir _ :: _ => (st, true)

/-- The outcome of a whole run: the batches committed, and whether the
process died in a panic. -/
structure RunResult where
  commits : List (List Record)
  panicked : Bool
deriving DecidableEq

/-- The tail of main after the root loop starting from a given state: on a
panic the process dies with the commits made so far; otherwise a non-empty
remainder batch is flushed (main.go lines 147-152). -/
def mainFrom (st : RunState) (roots : List Root) : RunResult :=
  let p := runRoots st roots
  if p.2 then ⟨p.1.commits, true⟩
  else if p.1.batch.isEmpty then ⟨p.1.commits, false⟩
  else ⟨p.1.commits ++ [p.1.batch], false⟩

/-- main (main.go lines 94-153) with an ideal store, from the empty batch. -/
def main (roots : List Root) : RunResult := mainFrom ⟨[], []⟩ roots

/-- A concrete record used by witnesses and counterexamples. -/
def r0 : Record := ⟨"a", ".txt", "da39a3ee5e6b4b0d3255bfef95601890afd80709", "/d/a.txt"⟩

/-- A directory whose hidden file is followed by a visible, readable,
record-worthy sibling. -/
def treeA : FSEntry := .dir "r" (.cons (.file ".h" (some [])) (.cons (.file "b" (some [])) .nil))

/-- The same directory without the hidden file. -/
def treeB : FSEntry := .dir "r" (.cons (.file "b" (some [])) .nil)

/-- A root whose only file is unreadable (hashing fails). -/
def badTree : FSEntry := .dir "r1" (.cons (.file "bad" none) .nil)

/-- A root whose only file is readable. -/
def okTree : FSEntry := .dir "r2" (.cons (.file "ok" (some [])) .nil)

/-- A tree with a hidden subtree, a visible readable file, and nothing
else. -/
def treeW : FSEntry :=
  .dir "root" (.cons (.dir ".git" (.cons (.file "cfg" (some [])) .nil))
    (.cons (.file "a.txt" (some [104])) .nil))

theorem wordHex_length (w : Nat) : (wordHex w).length = 8 := by
  simp [wordHex]

theorem hexChar_mem (n : Nat) (h : n < 16) : hexChar n ∈ hexDigits.data := by
  revert n h
  decide

theorem wordHex_mem (w : Nat) (c : Char) (hc : c ∈ wordHex w) : c ∈ hexDigits.data := by
  simp only [wordHex, List.mem_map, List.mem_range] at hc
  obtain ⟨i, _, rfl⟩ := hc
  exact hexChar_mem _ (Nat.mod_lt _ (by decide))

/-- Claim C8 (confirmed): for every regular file processed, the emitted
digest is a deterministic function of the file's byte content, is always
exactly 40 lowercase hexadecimal characters, identical content hashes to
identical digests, and empty content hashes to the SHA-1 digest of the
zero-length input. -/
theorem C8_sha1_digest (bs : List Nat) :
    (sha1hex bs).length = 40
    ∧ (∀ c, c ∈ (sha1hex bs).data → c ∈ hexDigits.data)
    ∧ (∀ bs2, bs = bs2 → sha1hex bs = sha1hex bs2)
    ∧ sha1hex [] = "da39a3ee5e6b4b0d3255bfef95601890afd80709" := by
  refine ⟨?_, ?_, fun bs2 h => by rw [h], by decide⟩
  · show (wordHex (sha1Words bs).a ++ wordHex (sha1Words bs).b ++ wordHex (sha1Words bs).c ++
      wordHex (sha1Words bs).d ++ wordHex (sha1Words bs).e).length = 40
    simp [wordHex_length]
  · intro c hc
    have hc' : c ∈ wordHex (sha1Words bs).a ++ wordHex (sha1Words bs).b ++
        wordHex (sha1Words bs).c ++ wordHex (sha1Words bs).d ++ wordHex (sha1Words bs).e := hc
    simp only [List.mem_append] at hc'
    rcases hc' with (((h | h) | h) | h) | h <;> exact wordHex_mem _ _ h

/-- Witness for C8 at concrete inputs: the digest of "hello" has length 40,
and the empty digest is the well-known value. -/
theorem C8_sha1_digest_witness :
    (sha1hex [104, 101, 108, 108, 111]).length = 40
    ∧ sha1hex [] = "da39a3ee5e6b4b0d3255bfef95601890afd80709" :=
  ⟨(C8_sha1_digest [104, 101, 108, 108, 111]).1, (C8_sha1_digest []).2.2.2⟩

/-- Claim C4 (code_bug): when tx.Commit() fails, commitRecords nevertheless
returns nil (the error is discarded at main.go line 90, contradicting the
function's own doc comment "Returns any errors that occurred"), after having
issued the commit call; the driver therefore continues as if the batch had
been persisted instead of terminating. -/
theorem C4_commit_error_ignored (e : String) (rs : List Record) :
    (commitRecords ⟨none, none, some e⟩ rs).1 = Except.ok ()
    ∧ ((commitRecords ⟨none, none, some e⟩ rs).2).getLast? = some DBOp.commitTx := by
  constructor
  · rfl
  · show (([DBOp.beginTx, DBOp.prepareDB insertSQL] ++
        rs.map (fun r => DBOp.execDB (recordArgs r))) ++ [DBOp.commitTx]).getLast? =
      some DBOp.commitTx
    exact List.getLast?_concat _

/-- Claim C9 (code_bug): when a root's absolute-path resolution fails, the
run does not continue with the next root: the driver (missing a continue
statement, main.go lines 139-143) walks the empty path, the callback
receives a nil FileInfo and doVisit panics, killing the process with no
further traversal and no remainder flush, whatever roots follow. -/
theorem C9_abs_failure_panics (d : String) (rest : List Root) :
    main (Root.unresolvedDir d :: rest) = ⟨[], true⟩ := rfl

/-- Claim C5, counterexample: for a healthy database and a one-record
batch, the call trace of commitRecords differs from the begin / insert
within the transaction / commit sequence the claim describes, because the
insert is executed through a statement prepared on the database handle,
outside the transaction. -/
theorem C5_counterexample :
    (commitRecords ⟨none, none, none⟩ [r0]).2 ≠ flushSpecOps [r0] := by decide

/-- Claim C5 (corrected): every flush performs begin; prepare of the
parameterized insert on the database handle (not the transaction); one
insert per record, in order, through that database-level statement (outside
the transaction); then the commit call on the transaction, returning nil;
and the driver clears the batch after a capacity-triggered flush. -/
theorem C5_flush_sequence (db : DBBehavior) (rs : List Record)
    (hb : db.beginErr = none) (hp : db.prepareErr = none) :
    (commitRecords db rs).2 =
      [DBOp.beginTx, DBOp.prepareDB insertSQL] ++ rs.map (fun r => DBOp.execDB (recordArgs r))
        ++ [DBOp.commitTx]
    ∧ (commitRecords db rs).1 = Except.ok ()
    ∧ ∀ (batch : List Record) (cs : List (List Record)) r, (batch ++ [r]).length = 100000 →
        appendRecord ⟨batch, cs⟩ r = ⟨[], cs ++ [batch ++ [r]]⟩ := by
  obtain ⟨b, pr, c⟩ := db
  simp only at hb hp
  subst hb
  subst hp
  refine ⟨rfl, rfl, ?_⟩
  intro batch cs r h
  simp [appendRecord, h]

/-- Witness for C5 at concrete inputs: a healthy database with a one-record
batch, and a batch reaching exactly 100000 records being committed and
cleared. -/
theorem C5_flush_sequence_witness :
    (commitRecords ⟨none, none, none⟩ [r0]).1 = Except.ok ()
    ∧ appendRecord ⟨List.replicate 99999 r0, []⟩ r0
        = ⟨[], [] ++ [List.replicate 99999 r0 ++ [r0]]⟩ :=
  ⟨(C5_flush_sequence ⟨none, none, none⟩ [r0] rfl rfl).2.1,
    (C5_flush_sequence ⟨none, none, none⟩ [r0] rfl rfl).2.2
      (List.replicate 99999 r0) [] r0
      (by rw [List.length_append, List.length_replicate]; rfl)⟩

/-- Claim C1, counterexample: in a directory holding the hidden file ".h"
followed by the visible readable file "b", no record at all is emitted -
removing the hidden file makes the sibling's record appear, so skipping the
hidden file does affect the traversal of its siblings. -/
theorem C1_counterexample :
    (walkTop "/r" treeA).1 = []
    ∧ (walkTop "/r" treeB).1.length = 1
    ∧ isHiddenName "b" = false := by
  refine ⟨by decide, by decide, by decide⟩

/-- Claim C2, counterexample: the same tree has exactly one non-hidden
regular file, all files readable, yet the walk emits no record. -/
theorem C2_counterexample :
    (walkTop "/r" treeA).1.length ≠ countNonHidden treeA
    ∧ countNonHidden treeA = 1
    ∧ allReadable treeA = true := by
  refine ⟨by decide, by decide, by decide⟩

/-- Claim C3, counterexample: with a first root whose only file is
unreadable and a second healthy root, the walk of the first root fails with
the I/O error, yet the run does not terminate: the second root is traversed
and its single record is flushed as the final remainder. -/
theorem C3_counterexample :
    walkTop "/r1" badTree = ([], some WErr.ioError)
    ∧ (main [.resolved "/r1" badTree, .resolved "/r2" okTree]).commits.map List.length = [1]
    ∧ (main [.resolved "/r1" badTree, .resolved "/r2" okTree]).panicked = false := by
  refine ⟨by decide, by decide, by decide⟩

theorem walkList_nil (p : String) : walkList p .nil = ([], none) := rfl

theorem walkList_cons (p : String) (e : FSEntry) (rest : FSList) :
    walkList p (.cons e rest) =
      if continueAfter (FSEntry.isDir e) (walkEntry (pathJoin p (FSEntry.name e)) e).2 then
        ((walkEntry (pathJoin p (FSEntry.name e)) e).1 ++ (walkList p rest).1,
          (walkList p rest).2)
      else walkEntry (pathJoin p (FSEntry.name e)) e := rfl

theorem nil_append_fs (l : FSList) : FSList.append .nil l = l := rfl

theorem cons_append_fs (e : FSEntry) (r l : FSList) :
    FSList.append (.cons e r) l = .cons e (FSList.append r l) := rfl

/-- When the walk of a directory's leading entries finishes normally and is
followed by a non-directory entry whose visit produces no record and a halt
signal, the walk of the whole entry list stops there with that signal: the
entries after it are never visited. -/
theorem walkList_stop (p : String) (e : FSEntry) (l2 : FSList) (sig : WErr)
    (hd : FSEntry.isDir e = false)
    (hw : walkEntry (pathJoin p (FSEntry.name e)) e = ([], some sig)) :
    ∀ (l1 : FSList) (rs : List Record), walkList p l1 = (rs, none) →
      walkList p (FSList.append l1 (.cons e l2)) = (rs, some sig)
  | .nil, rs, h => by
    rw [walkList_nil] at h
    injection h with h1 _
    subst h1
    rw [nil_append_fs, walkList_cons, hw, hd]
    cases sig <;> simp [continueAfter]
  | .cons e1 l1', rs, h => by
    rcases hw1 : walkEntry (pathJoin p (FSEntry.name e1)) e1 with ⟨v1, s1⟩
    rcases hw2 : walkList p l1' with ⟨w1, w2⟩
    simp only [walkList_cons, hw1, hw2] at h
    simp only [cons_append_fs, walkList_cons, hw1]
    by_cases hc : continueAfter (FSEntry.isDir e1) s1 = true
    · rw [if_pos hc] at h
      injection h with h1 h2
      subst h2
      have ih' := walkList_stop p e l2 sig hd hw l1' w1 hw2
      rw [if_pos hc, ih']
      rw [← h1]
    · rw [if_neg hc] at h
      injection h with h1 h2
      subst h2
      simp [continueAfter] at hc

/-- Visiting any entry whose base name starts with a dot yields no record
and the SkipDir signal, before anything else is looked at. -/
theorem walkEntry_hidden (p : String) (e : FSEntry)
    (hn : isHiddenName (FSEntry.name e) = true) :
    walkEntry p e = ([], some WErr.skipDir) := by
  cases e with
  | file n c => simp only [FSEntry.name] at hn; simp [walkEntry, doVisit, FSEntry.name, hn]
  | dir n es => simp only [FSEntry.name] at hn; simp [walkEntry, doVisit, FSEntry.name, hn]

/-- Claim C1 (corrected): for every entry whose base name starts with a dot
the visit signals SkipDir, so no record is emitted for it and, if it is a
directory, the walker does not descend beneath it; however, for a hidden
regular file the SkipDir signal makes filepath.Walk abandon the remainder of
the containing directory: the sibling entries after it are not traversed. -/
theorem C1_hidden_entries :
    (∀ (p : String) (e : FSEntry), isHiddenName (FSEntry.name e) = true →
        walkEntry p e = ([], some WErr.skipDir))
    ∧ (∀ (p : String) (l1 : FSList) (n : String) (c? : Option (List Nat)) (l2 : FSList)
        (rs : List Record), walkList p l1 = (rs, none) → isHiddenName n = true →
        walkList p (FSList.append l1 (.cons (.file n c?) l2)) = (rs, some WErr.skipDir)) := by
  refine ⟨walkEntry_hidden, ?_⟩
  intro p l1 n c? l2 rs h hn
  exact walkList_stop p (.file n c?) l2 .skipDir rfl (walkEntry_hidden _ _ hn) l1 rs h

/-- Witness for C1 at concrete inputs: a hidden file is skipped with no
record, and a hidden file appended after an empty prefix halts the walk of
the containing directory. -/
theorem C1_hidden_entries_witness :
    walkEntry "/x" (.file ".h" (some [])) = ([], some WErr.skipDir)
    ∧ walkList "/r" (FSList.append .nil (.cons (.file ".h" none) .nil))
        = ([], some WErr.skipDir) :=
  ⟨C1_hidden_entries.1 "/x" (.file ".h" (some [])) (by decide),
   C1_hidden_entries.2 "/r" .nil ".h" none .nil [] rfl (by decide)⟩

/-- Claim C3 (corrected): when hashing a regular file fails, the error
propagates from the visit and aborts the walk of the current root at that
point (entries after the failing file are not visited); but the driver
discards filepath.Walk's returned error and continues with the remaining
roots, and a non-empty remainder batch is still flushed at the end; the
process does not terminate. -/
theorem C3_hash_failure :
    (∀ (p : String) (l1 : FSList) (n : String) (l2 : FSList) (rs : List Record),
        walkList p l1 = (rs, none) → isHiddenName n = false →
        walkList p (FSList.append l1 (.cons (.file n none) l2)) = (rs, some WErr.ioError))
    ∧ (∀ (st : RunState) (a : String) (t : FSEntry) (rest : List Root),
        runRoots st (.resolved a t :: rest) = runRoots (feedRecords st (walkTop a t).1) rest)
    ∧ (∀ (batch : List Record) (cs : List (List Record)), batch.isEmpty = false →
        mainFrom ⟨batch, cs⟩ [] = ⟨cs ++ [batch], false⟩) := by
  refine ⟨?_, fun st a t rest => rfl, ?_⟩
  · intro p l1 n l2 rs h hn
    refine walkList_stop p (.file n none) l2 .ioError rfl ?_ l1 rs h
    simp [walkEntry, doVisit, FSEntry.name, hn, calcSha1]
  · intro batch cs hb
    simp [mainFrom, runRoots, hb]

/-- Witness for C3 at concrete inputs: a run over an unreadable file halts
the containing walk with the I/O error, the driver hands the next root to
the walk regardless, and a non-empty remainder is flushed. -/
theorem C3_hash_failure_witness :
    walkList "/r" (FSList.append .nil (.cons (.file "bad" none) .nil))
        = ([], some WErr.ioError)
    ∧ runRoots ⟨[], []⟩ [.resolved "/x" okTree]
        = runRoots (feedRecords ⟨[], []⟩ (walkTop "/x" okTree).1) []
    ∧ mainFrom ⟨[r0], []⟩ [] = ⟨[] ++ [[r0]], false⟩ :=
  ⟨C3_hash_failure.1 "/r" .nil "bad" .nil [] rfl (by decide),
   C3_hash_failure.2.1 ⟨[], []⟩ "/x" okTree [],
   C3_hash_failure.2.2 [r0] [] rfl⟩

/-- A hidden entry allowed by noHiddenFiles must be a directory. -/
theorem hidden_isDir (e : FSEntry) (hh : noHiddenFiles e = true)
    (hn : isHiddenName (FSEntry.name e) = true) : FSEntry.isDir e = true := by
  cases e with
  | file n c =>
    simp only [FSEntry.name] at hn
    simp [noHiddenFiles] at hh
    simp [hh] at hn
  | dir n es => rfl

/-- A hidden entry contributes nothing to the spec-side count. -/
theorem countNonHidden_hidden (e : FSEntry) (hn : isHiddenName (FSEntry.name e) = true) :
    countNonHidden e = 0 := by
  cases e with
  | file n c => simp only [FSEntry.name] at hn; simp [countNonHidden, hn]
  | dir n es => simp only [FSEntry.name] at hn; simp [countNonHidden, hn]

/- The walk of a non-hidden entry whose reachable files are all readable and
none hidden finishes normally, emitting one record per non-hidden regular
file; the list version covers a directory's entry sequence. -/
mutual
theorem walkEntry_count (p : String) (e : FSEntry) (hr : allReadable e = true)
    (hh : noHiddenFiles e = true) (hn : isHiddenName (FSEntry.name e) = false) :
    (walkEntry p e).2 = none ∧ (walkEntry p e).1.length = countNonHidden e := by
  cases e with
  | file n c? =>
    simp only [FSEntry.name] at hn
    cases c? with
    | none => simp [allReadable] at hr
    | some bs => simp [walkEntry, doVisit, FSEntry.name, hn, calcSha1, countNonHidden]
  | dir n es =>
    simp only [FSEntry.name] at hn
    simp only [allReadable, hn, Bool.false_or] at hr
    simp only [noHiddenFiles, hn, Bool.false_or] at hh
    have ih := walkList_count p es hr hh
    simp only [walkEntry, doVisit, FSEntry.name, hn, countNonHidden]
    simpa [hn] using ih
theorem walkList_count (p : String) (l : FSList) (hr : allReadableL l = true)
    (hh : noHiddenFilesL l = true) :
    (walkList p l).2 = none ∧ (walkList p l).1.length = countNonHiddenL l := by
  cases l with
  | nil => simp [walkList_nil, countNonHiddenL]
  | cons e rest =>
    have hr1 : allReadable e = true ∧ allReadableL rest = true := by
      simpa [allReadableL, Bool.and_eq_true] using hr
    have hh1 : noHiddenFiles e = true ∧ noHiddenFilesL rest = true := by
      simpa [noHiddenFilesL, Bool.and_eq_true] using hh
    have ihrest := walkList_count p rest hr1.2 hh1.2
    by_cases hn : isHiddenName (FSEntry.name e) = true
    · have hdir := hidden_isDir e hh1.1 hn
      have hz := walkEntry_hidden (pathJoin p (FSEntry.name e)) e hn
      rw [walkList_cons, hz, hdir]
      simp only [continueAfter, if_true]
      refine ⟨ihrest.1, ?_⟩
      simp [ihrest.2, countNonHiddenL, countNonHidden_hidden e hn]
    · have hn' : isHiddenName (FSEntry.name e) = false := by simpa using hn
      have he := walkEntry_count (pathJoin p (FSEntry.name e)) e hr1.1 hh1.1 hn'
      rw [walkList_cons, he.1]
      simp only [continueAfter, if_true]
      refine ⟨ihrest.1, ?_⟩
      simp [List.length_append, he.2, ihrest.2, countNonHiddenL]
end

/-- Claim C2 (corrected): for every directory tree whose reachable regular
files are all readable and in which no traversed directory holds a hidden
regular file, the number of records emitted equals the number of non-hidden
regular files reachable from the root, hidden subtrees excluded, and the
walk finishes without error. (The hypothesis excluding hidden regular files
is forced: a hidden file truncates the traversal of its directory.) -/
theorem C2_record_count (p : String) (e : FSEntry) (hr : allReadable e = true)
    (hh : noHiddenFiles e = true) :
    (walkTop p e).1.length = countNonHidden e ∧ (walkTop p e).2 = none := by
  by_cases hn : isHiddenName (FSEntry.name e) = true
  · have hz := walkEntry_hidden p e hn
    have h0 := countNonHidden_hidden e hn
    simp [walkTop, hz, h0]
  · have hn' : isHiddenName (FSEntry.name e) = false := by simpa using hn
    have he := walkEntry_count p e hr hh hn'
    simp [walkTop, he.1, he.2]

/-- Witness for C2 at a concrete tree: a hidden subtree, one visible
readable file, and nothing else gives exactly the spec-side count, with a
clean finish. -/
theorem C2_record_count_witness :
    (walkTop "/root" treeW).1.length = countNonHidden treeW
    ∧ (walkTop "/root" treeW).2 = none :=
  C2_record_count "/root" treeW (by decide) (by decide)

theorem runStream_def (rs : List Record) :
    runStream rs =
      if (feedRecords ⟨[], []⟩ rs).batch.isEmpty then (feedRecords ⟨[], []⟩ rs).commits
      else (feedRecords ⟨[], []⟩ rs).commits ++ [(feedRecords ⟨[], []⟩ rs).batch] := rfl

theorem appendRecord_def (st : RunState) (r : Record) :
    appendRecord st r =
      if (st.batch ++ [r]).length = 100000 then ⟨[], st.commits ++ [st.batch ++ [r]]⟩
      else ⟨st.batch ++ [r], st.commits⟩ := rfl

/-- Batching invariant of the visit callback: feeding a record stream into a
state whose batch is below capacity leaves the batch at the total count mod
100000, appends one full batch of 100000 to the commit list per 100000
records accumulated, and conserves the records (committed plus pending
equals previous plus fed). -/
theorem feed_inv (rs : List Record) : ∀ (st : RunState), st.batch.length < 100000 →
    (feedRecords st rs).batch.length = (st.batch.length + rs.length) % 100000
    ∧ (feedRecords st rs).commits.map List.length
        = st.commits.map List.length
          ++ List.replicate ((st.batch.length + rs.length) / 100000) 100000
    ∧ (feedRecords st rs).commits.flatten ++ (feedRecords st rs).batch
        = st.commits.flatten ++ st.batch ++ rs := by
  induction rs with
  | nil =>
    intro st hlt
    refine ⟨?_, ?_, ?_⟩
    · simp [feedRecords, Nat.mod_eq_of_lt hlt]
    · simp [feedRecords, Nat.div_eq_of_lt hlt]
    · simp [feedRecords]
  | cons r rs ih =>
    intro st hlt
    have hfeed : feedRecords st (r :: rs) = feedRecords (appendRecord st r) rs := rfl
    have hlen1 : (st.batch ++ [r]).length = st.batch.length + 1 := by
      simp
    by_cases hflush : (st.batch ++ [r]).length = 100000
    · have happ : appendRecord st r = ⟨[], st.commits ++ [st.batch ++ [r]]⟩ := by
        rw [appendRecord_def, if_pos hflush]
      have hlen : st.batch.length + 1 = 100000 := by
        rw [← hlen1]
        exact hflush
      have ih' := ih ⟨[], st.commits ++ [st.batch ++ [r]]⟩ (by simp)
      simp only [List.length_nil] at ih'
      rw [hfeed, happ]
      refine ⟨?_, ?_, ?_⟩
      · rw [ih'.1]
        simp only [List.length_cons]
        omega
      · rw [ih'.2.1]
        simp only [List.map_append, List.map_cons, List.map_nil, hflush, List.length_cons]
        have hdiv : (st.batch.length + (rs.length + 1)) / 100000 = rs.length / 100000 + 1 := by
          omega
        rw [hdiv, List.replicate_succ, Nat.zero_add, List.append_assoc,
          List.singleton_append]
      · rw [ih'.2.2]
        simp [List.append_assoc]
    · have happ : appendRecord st r = ⟨st.batch ++ [r], st.commits⟩ := by
        rw [appendRecord_def, if_neg hflush]
      have hlt' : (st.batch ++ [r]).length < 100000 := by
        rw [hlen1]
        rw [hlen1] at hflush
        omega
      have ih' := ih ⟨st.batch ++ [r], st.commits⟩ hlt'
      simp only [List.length_append, List.length_cons, List.length_nil] at ih'
      rw [hfeed, happ]
      refine ⟨?_, ?_, ?_⟩
      · rw [ih'.1]
        simp only [List.length_cons]
        omega
      · rw [ih'.2.1]
        have : st.batch.length + 0 + 1 + rs.length = st.batch.length + (r :: rs).length := by
          simp only [List.length_cons]
          omega
        rw [this]
      · rw [ih'.2.2]
        simp [List.append_assoc]

/-- Claim C6 (confirmed): the batch is flushed exactly when it reaches
100000 records and cleared after each flush, with a final flush of a
non-empty remainder; for a run producing exactly 250000 records the store
receives exactly 3 commits of 100000, 100000 and 50000 records, the rows
gained are exactly the 250000 emitted records, and a single-root run whose
walk emits that stream commits exactly those batches. -/
theorem C6_batching (rs : List Record) (hlen : rs.length = 250000) :
    (runStream rs).map List.length = [100000, 100000, 50000]
    ∧ (runStream rs).flatten = rs
    ∧ ∀ (a : String) (t : FSEntry), (walkTop a t).1 = rs →
        (main [.resolved a t]).commits = runStream rs := by
  have hinv := feed_inv rs ⟨[], []⟩ (by simp)
  simp only [List.length_nil, List.map_nil, List.flatten_nil, Nat.zero_add,
    List.nil_append] at hinv
  have hb : (feedRecords ⟨[], []⟩ rs).batch.length = 50000 := by
    rw [hinv.1, hlen]
  have hbne : (feedRecords ⟨[], []⟩ rs).batch.isEmpty = false := by
    have hne : (feedRecords ⟨[], []⟩ rs).batch ≠ [] := by
      intro h
      rw [h] at hb
      simp at hb
    simpa [List.isEmpty_iff] using hne
  have hcm : (feedRecords ⟨[], []⟩ rs).commits.map List.length
      = List.replicate 2 100000 := by
    rw [hinv.2.1, hlen]
  have hjoin : (feedRecords ⟨[], []⟩ rs).commits.flatten ++ (feedRecords ⟨[], []⟩ rs).batch
      = rs := hinv.2.2
  refine ⟨?_, ?_, ?_⟩
  · rw [runStream_def, hbne]
    simp only [Bool.false_eq_true, if_false, List.map_append, hcm, List.map_cons,
      List.map_nil, hb]
    decide
  · rw [runStream_def, hbne]
    simp only [Bool.false_eq_true, if_false, List.flatten_append, List.flatten_cons,
      List.flatten_nil, List.append_nil]
    exact hjoin
  · intro a t hwalk
    simp [main, mainFrom, runRoots, hwalk, hbne, runStream_def]

/-- Witness for C6 at a concrete stream of exactly 250000 records. -/
theorem C6_batching_witness :
    (runStream (List.replicate 250000 r0)).map List.length = [100000, 100000, 50000]
    ∧ (runStream (List.replicate 250000 r0)).flatten = List.replicate 250000 r0 :=
  ⟨(C6_batching (List.replicate 250000 r0) (by rw [List.length_replicate])).1,
   (C6_batching (List.replicate 250000 r0) (by rw [List.length_replicate])).2.1⟩

/-- The filepath.Ext scan over characters containing no dot finds nothing. -/
theorem extRevAux_no_dot (l : List Char) : ∀ acc, ('.' ∈ l → False) → extRevAux l acc = [] := by
  induction l with
  | nil => intro acc _; rfl
  | cons c rest ih =>
    intro acc h
    by_cases hs : c = '/'
    · simp [extRevAux, hs]
    · have hd : ¬c = '.' := fun hc => h (by rw [hc]; exact List.mem_cons_self _ _)
      simp only [extRevAux, if_neg hs, if_neg hd]
      exact ih _ (fun hm => h (List.mem_cons_of_mem _ hm))

/-- The filepath.Ext scan, started on characters free of dots and
separators followed by a dot, stops at that dot and returns it together
with the characters already passed. -/
theorem extRevAux_dot (l : List Char) : ∀ (acc rest : List Char),
    ('.' ∈ l → False) → ('/' ∈ l → False) →
    extRevAux (l ++ '.' :: rest) acc = '.' :: (l.reverse ++ acc) := by
  induction l with
  | nil => intro acc rest _ _; simp [extRevAux]
  | cons c t ih =>
    intro acc rest h1 h2
    have hs : ¬c = '/' := fun hc => h2 (by rw [hc]; exact List.mem_cons_self _ _)
    have hd : ¬c = '.' := fun hc => h1 (by rw [hc]; exact List.mem_cons_self _ _)
    simp only [List.cons_append, extRevAux, if_neg hs, if_neg hd]
    show extRevAux (t ++ '.' :: rest) (c :: acc) = '.' :: ((c :: t).reverse ++ acc)
    rw [ih (c :: acc) rest (fun hm => h1 (List.mem_cons_of_mem _ hm))
      (fun hm => h2 (List.mem_cons_of_mem _ hm))]
    simp [List.reverse_cons, List.append_assoc]

/-- filepath.Ext of a name that ends in a dot-free, separator-free suffix
after a dot is exactly that last-dot suffix, dot included. -/
theorem filepathExt_last_dot (stem suffix : List Char)
    (h1 : '.' ∈ suffix → False) (h2 : '/' ∈ suffix → False) :
    filepathExt ⟨stem ++ '.' :: suffix⟩ = ⟨'.' :: suffix⟩ := by
  have hrev : (stem ++ '.' :: suffix).reverse = suffix.reverse ++ '.' :: stem.reverse := by
    rw [List.reverse_append, List.reverse_cons, List.append_assoc, List.singleton_append]
  show (⟨extRevAux (stem ++ '.' :: suffix).reverse []⟩ : String) = ⟨'.' :: suffix⟩
  rw [hrev, extRevAux_dot suffix.reverse [] stem.reverse
    (fun hm => h1 (by simpa using hm)) (fun hm => h2 (by simpa using hm))]
  simp

/-- Claim C7, counterexample: for the file a.txt.txt the code removes every
occurrence of the extension ".txt" from the name, producing extless "a",
whereas splitting on the last separator - what the claim describes - gives
"a.txt". -/
theorem C7_counterexample :
    doVisit "/d/a.txt.txt" (.file "a.txt.txt" (some [])) =
      .ok (some ⟨"a", ".txt", sha1hex [], "/d/a.txt.txt"⟩)
    ∧ lastDotStem "a.txt.txt" = "a.txt"
    ∧ ("a" : String) ≠ "a.txt" := by
  refine ⟨rfl, rfl, by decide⟩

/-- Claim C7 (corrected): for every regular file processed, ext is the
extension from the last separator of the base name (including the
separator) and extless is the base name with every leftmost non-overlapping
occurrence of that extension substring removed - not a last-separator
split; archive.tar.gz still yields ext ".gz" and extless "archive.tar". -/
theorem C7_extension :
    (∀ (p n : String) (c : List Nat), isHiddenName n = false →
        doVisit p (.file n (some c)) =
          .ok (some ⟨stringsReplace n (filepathExt n), filepathExt n, sha1hex c, p⟩))
    ∧ (∀ stem suffix : List Char, ('.' ∈ suffix → False) → ('/' ∈ suffix → False) →
        filepathExt ⟨stem ++ '.' :: suffix⟩ = ⟨'.' :: suffix⟩)
    ∧ doVisit "/d/archive.tar.gz" (.file "archive.tar.gz" (some [])) =
        .ok (some ⟨"archive.tar", ".gz", sha1hex [], "/d/archive.tar.gz"⟩) := by
  refine ⟨?_, filepathExt_last_dot, rfl⟩
  intro p n c hn
  simp [doVisit, FSEntry.name, hn, calcSha1]

/-- Witness for C7 at concrete inputs: a visible readable file goes through
the ext / extless derivation, and the last-dot lemma applies to a one-dot
name. -/
theorem C7_extension_witness :
    doVisit "/q" (.file "b.txt" (some [1])) =
      .ok (some ⟨stringsReplace "b.txt" (filepathExt "b.txt"), filepathExt "b.txt",
        sha1hex [1], "/q"⟩)
    ∧ filepathExt ⟨['a'] ++ '.' :: ['g', 'z']⟩ = ⟨'.' :: ['g', 'z']⟩ :=
  ⟨C7_extension.1 "/q" "b.txt" [1] (by decide),
   C7_extension.2.1 ['a'] ['g', 'z'] (by decide) (by decide)⟩

/-- Claim C10 (confirmed): a regular file whose base name contains no dot
gets ext equal to the empty string (filepath.Ext finds no dot) and extless
equal to the unchanged base name (strings.Replace returns the name as is
when old equals new, both empty). -/
theorem C10_no_extension (p n : String) (c : List Nat)
    (hnd : '.' ∈ n.data → False) :
    doVisit p (.file n (some c)) = .ok (some ⟨n, "", sha1hex c, p⟩) := by
  have hhid : isHiddenName n = false := by
    cases hd : n.data with
    | nil => simp [isHiddenName, hd]
    | cons c0 t =>
      have hc0 : ¬c0 = '.' := fun hc => hnd (by rw [hd, hc]; exact List.mem_cons_self _ _)
      simp [isHiddenName, hd, hc0]
  have hext : filepathExt n = "" := by
    show (⟨extRevAux n.data.reverse []⟩ : String) = ""
    rw [extRevAux_no_dot n.data.reverse [] (fun hm => hnd (by simpa using hm))]
  have hrepl : stringsReplace n "" = n := by
    simp [stringsReplace]
  simp [doVisit, FSEntry.name, hhid, calcSha1, hext, hrepl]

/-- Witness for C10 at a concrete dot-free name. -/
theorem C10_no_extension_witness :
    doVisit "/d/README" (.file "README" (some [])) =
      .ok (some ⟨"README", "", sha1hex [], "/d/README"⟩) :=
  C10_no_extension "/d/README" "README" [] (by decide)

end Sha1Files
